import Mathlib

/-!
Shallow embedding of the in-memory file-set index of the `files` package
(`set.go` in the sources) together with the `lamport` clock package, for
checking specification claims about record keys, the update and replace
operations, and the usage-count invariant.

Modelling conventions.  Go maps are association lists: `alookup`, `ainsert`
and `aerase` mirror map read, write and delete; a `nil` Go map is
`Option.none`, while an initialized empty map is `some []`.  Go `uint64`
counters wrap, written as an explicit `% 2 ^ 64` at each increment.  A
run-time panic (assignment to an entry of a nil map, or an array index out
of range) is modelled by the operation returning `none`.
-/

namespace Files

/-- Go map read: the first binding of the key, `none` when absent. -/
def alookup {α β : Type} [DecidableEq α] : List (α × β) → α → Option β
  | [], _ => none
  | e :: t, a => if e.1 = a then some e.2 else alookup t a

/-- Go map delete: remove every binding of the key. -/
def aerase {α β : Type} [DecidableEq α] : List (α × β) → α → List (α × β)
  | [], _ => []
  | e :: t, a => if e.1 = a then aerase t a else e :: aerase t a

/-- Go map write `m[a] = b`: bind `a` to `b`, dropping any previous binding. -/
def ainsert {α β : Type} [DecidableEq α] (l : List (α × β)) (a : α) (b : β) :
    List (α × β) :=
  (a, b) :: aerase l a

/-- Number of entries of an association list whose value is `b`. -/
def vcount {α β : Type} [DecidableEq β] : List (α × β) → β → Nat
  | [], _ => 0
  | e :: t, b => (if e.2 = b then 1 else 0) + vcount t b

/-- One content block of a file, `scanner.Block`.  Modelled from the spec:
the scanner package is not among the sources; §3 of the spec describes a
block as `{Offset, Size, Hash}` with `Hash` the block's digest bytes. -/
structure Block where
  Offset : Int
  Size : Int
  Hash : List Nat
deriving DecidableEq, Repr

/-- The file descriptor, `scanner.File`.  Modelled from the spec: the
scanner package is not among the sources; the fields are those of §3 of the
spec, each of which is also used by `set.go` (`Name`, `Version`, `Modified`,
`Flags`, `Size`, `Blocks`).  `Version` is a `uint64`, `Modified` a signed
64-bit timestamp, `Flags` a `uint32` bitfield, `Size` an `int64`. -/
structure File where
  Name : String
  Version : Nat
  Modified : Int
  Flags : Nat
  Size : Int
  Blocks : List Block
deriving DecidableEq, Repr

/-- The Go zero value of `scanner.File`. -/
def zeroFile : File :=
  { Name := "", Version := 0, Modified := 0, Flags := 0, Size := 0, Blocks := [] }

/-- The value of `md5.Size`: an MD5 digest is 16 bytes. -/
def md5Size : Nat := 16

/-- The 16 bytes of `md5.Sum(nil)`, the MD5 digest of the empty input
(the well-known constant d41d8cd98f00b204e9800998ecf8427e). -/
def md5SumNil : List Nat :=
  [0xd4, 0x1d, 0x8c, 0xd9, 0x8f, 0x00, 0xb2, 0x04,
   0xe9, 0x80, 0x09, 0x98, 0xec, 0xf8, 0x42, 0x7e]

/-- The record key type `key` of `set.go`: name, version, modification time
and a 16-byte digest (`[md5.Size]byte`, modelled as a byte list). -/
structure key where
  Name : String
  Version : Nat
  Modified : Int
  Hash : List Nat
deriving DecidableEq, Repr

/-- The Go zero value of `key` (empty name, zero version and time, and the
all-zero 16-byte array). -/
def zeroKey : key :=
  { Name := "", Version := 0, Modified := 0, Hash := List.replicate md5Size 0 }

/-- The function `keyFor` of `set.go`.  The source creates an md5 hasher `h`, writes every
block hash of `f.Blocks` into `h` in order — and then discards `h`: the
`Hash` field of the returned key is `md5.Sum(nil)`, the digest of the empty
byte string, so it is the constant `md5SumNil` whatever the blocks are.
(The writes into `h` have no other effect, so they are omitted here.) -/
def keyFor (f : File) : key :=
  { Name := f.Name, Version := f.Version, Modified := f.Modified, Hash := md5SumNil }

/-- The byte-wise tie-break loop of `key.newerThan`: find the first position
where the two digests differ and compare there; equal digests are not newer. -/
def hashNewer : List Nat → List Nat → Bool
  | a :: as, b :: bs => if a ≠ b then decide (a > b) else hashNewer as bs
  | _, _ => false

/-- The method `key.newerThan` of `set.go`: larger version wins, then larger
modification time, then the byte-wise larger digest. -/
def key.newerThan (a b : key) : Bool :=
  if a.Version ≠ b.Version then decide (a.Version > b.Version)
  else if a.Modified ≠ b.Modified then decide (a.Modified > b.Modified)
  else hashNewer a.Hash b.Hash

/-- The type `fileRecord` of `set.go`: a reference-counted holder of one descriptor.
`Usage` is a Go `int`; every path of the source keeps it nonnegative (it is
created at 1, incremented, and decremented only when above 1), so it is
modelled as `Nat`. -/
structure fileRecord where
  Usage : Nat
  File : File
deriving DecidableEq, Repr

/-- The Go zero value of `fileRecord`. -/
def zeroRecord : fileRecord := { Usage := 0, File := zeroFile }

/-- The 64-bit availability mask type `bitset` of `set.go`; every value the
code builds is an or of bits `2 ^ i` with `i < 64`, so no wrap occurs. -/
abbrev bitset := Nat

/-- The per-peer index component: 64 slots, each a Go map from file name to
record key; `none` is a nil (never-initialized) map. -/
abbrev PeerMaps := Fin 64 → Option (List (String × key))

/-- The `Set` type of `set.go` (the mutex is the concurrency wrapper and has
no effect on the sequential state).  `changes` is an array of 64 `uint64`
counters. -/
structure Set where
  files : List (key × fileRecord)
  remoteKey : PeerMaps
  changes : Fin 64 → Nat
  globalAvailability : List (String × bitset)
  globalKey : List (String × key)

/-- The constructor `NewSet` of `set.go`: `files`, `globalAvailability` and `globalKey` are
made (empty, non-nil); the 64 `remoteKey` maps are left as their zero value,
nil. -/
def NewSet : Set :=
  { files := []
    remoteKey := fun _ => none
    changes := fun _ => 0
    globalAvailability := []
    globalKey := [] }

/-- The entries peer `i` currently holds (a nil map reads as empty). -/
def entriesOf (s : Set) (i : Fin 64) : List (String × key) :=
  (s.remoteKey i).getD []

/-- The record-table step of `update`: keep the existing record and bump its
usage, or insert a fresh record with usage 1 holding the descriptor. -/
def bumpFiles (f : File) (fk : key) (files : List (key × fileRecord)) :
    List (key × fileRecord) :=
  match alookup files fk with
  | none => ainsert files fk { Usage := 1, File := f }
  | some br => ainsert files fk { Usage := br.Usage + 1, File := br.File }

/-- The global-view step of `update`: `gk, ok := m.globalKey[n]`; if the new
key equals the present global key, or this peer's bit into the availability
mask; else if it is newer (than the present key, or than the zero key when
the name has no global entry), install it with just this peer's bit. -/
def updateGlobal (c : Fin 64) (n : String) (fk : key) (s : Set) : Set :=
  let gkOpt := alookup s.globalKey n
  let gk := gkOpt.getD zeroKey
  if gkOpt.isSome ∧ fk = gk then
    let av := ((alookup s.globalAvailability n).getD 0) ||| (1 <<< (c : Nat))
    { s with globalAvailability := ainsert s.globalAvailability n av }
  else if fk.newerThan gk then
    { s with globalKey := ainsert s.globalKey n fk,
             globalAvailability := ainsert s.globalAvailability n (1 <<< (c : Nat)) }
  else s

/-- One iteration of the loop of the private `update` method: skip when the
peer already has exactly this key; otherwise write the peer's binding (a
panic — `none` — when the peer's map is nil), bump the record table, and
update the global view. -/
def update1 (c : Fin 64) (s : Set) (f : File) : Option Set :=
  let n := f.Name
  let fk := keyFor f
  if alookup (entriesOf s c) n = some fk then
    some s
  else
    match s.remoteKey c with
    | none => none
    | some remFiles =>
        some (updateGlobal c n fk
          { s with
              remoteKey := Function.update s.remoteKey c (some (ainsert remFiles n fk)),
              files := bumpFiles f fk s.files })

/-- The private `update` method of `set.go`: fold `update1` over the list. -/
def updateGo (c : Fin 64) (s : Set) : List File → Option Set
  | [] => some s
  | f :: fs =>
      match update1 c s f with
      | none => none
      | some s1 => updateGo c s1 fs

/-- The public `Update` method. It performs no range check of its own: an id
of 64 or more hits the array index `m.remoteKey[cid]` and panics.  On
success the peer's change counter is incremented (a wrapping `uint64`). -/
def Update (id : Nat) (fs : List File) (s : Set) : Option Set :=
  if h : id < 64 then
    match updateGo ⟨id, h⟩ s fs with
    | none => none
    | some s1 =>
        some { s1 with
          changes := Function.update s1.changes ⟨id, h⟩ ((s1.changes ⟨id, h⟩ + 1) % 2 ^ 64) }
  else none

/-- The usage-decrement loop at the head of the private `replace` method:
for each key the peer held, delete the record when its usage is 1, decrement
it when above 1 (and, like the Go `switch`, do nothing in any other case). -/
def decFiles (files : List (key × fileRecord)) :
    List (String × key) → List (key × fileRecord)
  | [] => files
  | e :: rest =>
      let files1 :=
        match alookup files e.2 with
        | some br =>
            if br.Usage = 1 then aerase files e.2
            else if 1 < br.Usage then
              ainsert files e.2 { Usage := br.Usage - 1, File := br.File }
            else files
        | none => files
      decFiles files1 rest

/-- The inner scan of the global recomputation of `replace`: over peer slots
0 … 63 in order, starting from the zero key and an empty mask, keep the
newest key for `n` and the mask of peers holding exactly it. -/
def scanPeers (s : Set) (n : String) : key × bitset :=
  (List.finRange 64).foldl
    (fun (acc : key × bitset) i =>
      match alookup (entriesOf s i) n with
      | some rk =>
          if rk = acc.1 then (acc.1, acc.2 ||| (1 <<< (i : Nat)))
          else if rk.newerThan acc.1 then (rk, 1 <<< (i : Nat))
          else acc
      | none => acc)
    (zeroKey, 0)

/-- The global recomputation loop of `replace`: for every name that was in
the global index, rescan all peers; install the newest key and mask when
someone still has the name, and drop the name from both global maps when
no one does. -/
def recomputeGlobal (s : Set) : List String → Set
  | [] => s
  | n :: rest =>
      let nkna := scanPeers s n
      let s1 :=
        if nkna.2 ≠ 0 then
          { s with globalKey := ainsert s.globalKey n nkna.1,
                   globalAvailability := ainsert s.globalAvailability n nkna.2 }
        else
          { s with globalKey := aerase s.globalKey n,
                   globalAvailability := aerase s.globalAvailability n }
      recomputeGlobal s1 rest

/-- The private `replace` method of `set.go`: decrement the usage of every
record the peer held, clear the peer's map (to a fresh non-nil empty map),
recompute the global view for every name that was in the global index, and
merge the new list with the `update` logic. -/
def replaceGo (c : Fin 64) (fs : List File) (s : Set) : Option Set :=
  let s1 := { s with files := decFiles s.files (entriesOf s c) }
  let s2 := { s1 with remoteKey := Function.update s1.remoteKey c (some []) }
  let s3 := recomputeGlobal s2 (s2.globalKey.map Prod.fst)
  updateGo c s3 fs

/-- The private `equals` method: same size, and every listed file's name is
bound to exactly its key (a missing name reads as the zero key). -/
def equalsGo (s : Set) (id : Fin 64) (fs : List File) : Bool :=
  let m := entriesOf s id
  if m.length = fs.length then
    fs.all (fun f => (alookup m f.Name).getD zeroKey = keyFor f)
  else false

/-- Bump the wrapping `uint64` change counter of one peer. -/
def bumpChanges (s : Set) (i : Fin 64) : Set :=
  { s with changes := Function.update s.changes i ((s.changes i + 1) % 2 ^ 64) }

/-- The public `Replace` method: panic (`none`) when the id exceeds 63;
a no-op when the new list equals the peer's current view; otherwise bump the
change counter once and run the private `replace`. -/
def Replace (id : Nat) (fs : List File) (s : Set) : Option Set :=
  if h : id < 64 then
    let i : Fin 64 := ⟨id, h⟩
    if equalsGo s i fs then some s
    else replaceGo i fs (bumpChanges s i)
  else none

/-- The function `Clock` of `lamport/clock.go` with the package state passed explicitly:
given the stored clock value and a candidate, return the new stored value
and the returned version (both `uint64`, wrapping). -/
def lamportClock (clockVal c : Nat) : Nat × Nat :=
  if c > clockVal then ((c + 1) % 2 ^ 64, (c + 1) % 2 ^ 64)
  else ((clockVal + 1) % 2 ^ 64, (clockVal + 1) % 2 ^ 64)

/-- Modelled from the spec: `cid.LocalID`, the distinguished peer id of the
local process (the cid package is not among the sources; §8 of the spec
states `LocalID = 0`). -/
def LocalID : Fin 64 := 0

/-- Modelled from the spec: `protocol.FlagDeleted`, the Deleted bit of the
flags bitfield (the protocol package's constants are not among the sources;
only its being a fixed flag value matters here). -/
def FlagDeleted : Nat := 4096

/-- The tombstone loop of `ReplaceWithDelete`: for every key the local peer
holds whose name is not in the new list, clone the stored descriptor with
the Deleted flag, no blocks, zero size, and a version drawn from the lamport
clock seeded with the current version.  Returns the final clock value and
the synthesized descriptors in iteration order. -/
def buildTombstones (files : List (key × fileRecord)) (nf : List String)
    (clockVal : Nat) : List (String × key) → Nat × List File
  | [] => (clockVal, [])
  | e :: rest =>
      if nf.contains e.2.Name then buildTombstones files nf clockVal rest
      else
        let cf := ((alookup files e.2).getD zeroRecord).File
        let cv := lamportClock clockVal cf.Version
        let cf1 := { cf with Flags := FlagDeleted, Blocks := [], Size := 0, Version := cv.2 }
        let rec1 := buildTombstones files nf cv.1 rest
        (rec1.1, cf1 :: rec1.2)

/-- The descriptor list `ReplaceWithDelete` appends to its argument:
tombstones for the local peer's names missing from `fs`. -/
def tombstoneList (s : Set) (fs : List File) (clockVal : Nat) : List File :=
  (buildTombstones s.files (fs.map File.Name) clockVal (entriesOf s LocalID)).2

/-- The public `ReplaceWithDelete` method, threading the lamport-clock state:
panic (`none`) above id 63; a no-op when the list equals the peer's view;
otherwise bump the change counter, append tombstones for locally deleted
names, and run the private `replace`. -/
def ReplaceWithDelete (id : Nat) (fs : List File) (s : Set) (clockVal : Nat) :
    Option (Set × Nat) :=
  if h : id < 64 then
    let i : Fin 64 := ⟨id, h⟩
    if equalsGo s i fs then some (s, clockVal)
    else
      let s1 := bumpChanges s i
      let tl := buildTombstones s1.files (fs.map File.Name) clockVal (entriesOf s1 LocalID)
      (replaceGo i (fs ++ tl.2) s1).map (fun s2 => (s2, tl.1))
  else none

/-- The `Need` query: the stored descriptor of every global entry whose key
is newer than the one the peer holds (the zero key when the peer lacks the
name). -/
def Need (c : Fin 64) (s : Set) : List File :=
  s.globalKey.filterMap (fun e =>
    if e.2.newerThan ((alookup (entriesOf s c) e.1).getD zeroKey) then
      some ((alookup s.files e.2).getD zeroRecord).File
    else none)

/-- The `Have` query: the stored descriptor of every entry the peer holds. -/
def Have (c : Fin 64) (s : Set) : List File :=
  (entriesOf s c).map (fun e => ((alookup s.files e.2).getD zeroRecord).File)

/-- The `Global` query: the stored descriptor of every global entry. -/
def Global (s : Set) : List File :=
  s.globalKey.map (fun e => ((alookup s.files e.2).getD zeroRecord).File)

/-- The `Get` query: the descriptor the peer holds for a name (zero-valued
defaults when absent). -/
def Get (c : Fin 64) (file : String) (s : Set) : File :=
  ((alookup s.files ((alookup (entriesOf s c) file).getD zeroKey)).getD zeroRecord).File

/-- The `GetGlobal` query: the globally newest descriptor for a name
(zero-valued defaults when absent). -/
def GetGlobal (file : String) (s : Set) : File :=
  ((alookup s.files ((alookup s.globalKey file).getD zeroKey)).getD zeroRecord).File

/-- The `Availability` query: the mask for a name, zero when absent. -/
def Availability (name : String) (s : Set) : bitset :=
  (alookup s.globalAvailability name).getD 0

/-- The `Changes` query for a peer slot. -/
def Changes (id : Fin 64) (s : Set) : Nat := s.changes id

/-- The number of `(peer, name)` entries across the 64 per-peer indices that
map to the record key `k`. -/
def refCount (rk : PeerMaps) (k : key) : Nat :=
  ((List.finRange 64).map (fun i => vcount ((rk i).getD []) k)).sum

/-- The same count with one peer slot left out (used while that slot is
being rewritten). -/
def refCountExcept (rk : PeerMaps) (c : Fin 64) (k : key) : Nat :=
  ∑ i ∈ Finset.univ.erase c, vcount ((rk i).getD []) k

/-- The usage invariant of claim C3: every record's stored `Usage` equals
the exact number of `(peer, name)` entries mapping to its key, every stored
usage is at least 1 (so no zero-reference record remains), and every
per-peer entry resolves to a record in the table. -/
def usageInvariant (s : Set) : Prop :=
  (∀ e ∈ s.files, e.2.Usage = refCount s.remoteKey e.1) ∧
  (∀ e ∈ s.files, 1 ≤ e.2.Usage) ∧
  (∀ i : Fin 64, ∀ e ∈ entriesOf s i, (alookup s.files e.2).isSome)

/-- The condition `noRebind m fs`: processing `fs` sequentially against the peer map `m`
(the way the private `update` does) never rebinds a name that is already
bound to a different key — each processed file either adds a fresh name or
repeats exactly the key already bound. -/
def noRebind : List (String × key) → List File → Bool
  | _, [] => true
  | m, f :: fs =>
      match alookup m f.Name with
      | none => noRebind (ainsert m f.Name (keyFor f)) fs
      | some k => if k = keyFor f then noRebind m fs else false

/-- The states reachable from `NewSet` by public operations that return
(no panic), restricted as the amended claim C3 requires: an `Update` never
rebinds an existing `(peer, name)` entry to a different key, and the lists
handed to `Replace` and `ReplaceWithDelete` (for the latter, together with
the tombstones it synthesizes) never bind one name to two different keys. -/
inductive Reachable : Set → Prop
  | base : Reachable NewSet
  | update (i : Fin 64) (fs : List File) (s s1 : Set) :
      Reachable s → noRebind (entriesOf s i) fs = true →
      Update (i : Nat) fs s = some s1 → Reachable s1
  | replace (i : Fin 64) (fs : List File) (s s1 : Set) :
      Reachable s → noRebind [] fs = true →
      Replace (i : Nat) fs s = some s1 → Reachable s1
  | replaceWithDelete (i : Fin 64) (fs : List File) (s s1 : Set) (cv cv1 : Nat) :
      Reachable s → noRebind [] (fs ++ tombstoneList s fs cv) = true →
      ReplaceWithDelete (i : Nat) fs s cv = some (s1, cv1) → Reachable s1

/-- Descriptor `a@1` of the end-to-end scenarios (no blocks). -/
def fa : File :=
  { Name := "a", Version := 1, Modified := 0, Flags := 0, Size := 0, Blocks := [] }

/-- Descriptor `b@1` of the end-to-end scenarios (no blocks). -/
def fb : File :=
  { Name := "b", Version := 1, Modified := 0, Flags := 0, Size := 0, Blocks := [] }

/-- Descriptor `a@2` of the end-to-end scenarios (no blocks). -/
def fa2 : File :=
  { Name := "a", Version := 2, Modified := 0, Flags := 0, Size := 0, Blocks := [] }

/-- A descriptor with one block whose hash is the single byte 1. -/
def fileA : File :=
  { Name := "x", Version := 5, Modified := 7, Flags := 0, Size := 1,
    Blocks := [{ Offset := 0, Size := 1, Hash := [1] }] }

/-- The same descriptor except that its single block hash is the byte 2. -/
def fileB : File :=
  { Name := "x", Version := 5, Modified := 7, Flags := 0, Size := 1,
    Blocks := [{ Offset := 0, Size := 1, Hash := [2] }] }

/-- The run of scenario 1 with the per-peer maps initialized the way the
code supports: `Replace(0, [a@1, b@1])` then `Replace(1, [a@1, b@1])` on a
fresh set. -/
def c2run : Option Set :=
  (Replace 0 [fa, fb] NewSet).bind (Replace 1 [fa, fb])

/-- A run exhibiting the stale record `Update` leaves behind:
`Replace(0, [a@1])` then `Update(0, [a@2])` on a fresh set. -/
def c3run : Option Set :=
  (Replace 0 [fa] NewSet).bind (Update 0 [fa2])

theorem alookup_eq_none_iff {α β : Type} [DecidableEq α] {l : List (α × β)} {a : α} :
    alookup l a = none ↔ ∀ e ∈ l, e.1 ≠ a := by
  induction l with
  | nil => simp [alookup]
  | cons e t ih => by_cases h : e.1 = a <;> simp [alookup, h, ih]

theorem mem_of_alookup_eq_some {α β : Type} [DecidableEq α] {l : List (α × β)}
    {a : α} {b : β} (h : alookup l a = some b) : (a, b) ∈ l := by
  induction l with
  | nil => simp [alookup] at h
  | cons e t ih =>
      rw [alookup] at h
      by_cases he : e.1 = a
      · rw [if_pos he] at h
        injection h with hb
        subst hb
        rw [← he]
        exact List.mem_cons_self _ _
      · rw [if_neg he] at h
        exact List.mem_cons_of_mem _ (ih h)

theorem alookup_aerase {α β : Type} [DecidableEq α] (l : List (α × β)) (a a' : α) :
    alookup (aerase l a) a' = if a' = a then none else alookup l a' := by
  induction l with
  | nil => simp [alookup, aerase]
  | cons e t ih =>
      rw [aerase]
      by_cases he : e.1 = a
      · rw [if_pos he, ih, alookup]
        by_cases ha : a' = a
        · simp [ha]
        · have : ¬e.1 = a' := by rw [he]; exact fun hc => ha hc.symm
          simp [ha, this]
      · rw [if_neg he, alookup, alookup]
        by_cases hea : e.1 = a'
        · have : ¬a' = a := by rw [← hea]; exact he
          simp [hea, this]
        · simp [hea, ih]

theorem aerase_of_alookup_eq_none {α β : Type} [DecidableEq α] {l : List (α × β)}
    {a : α} (h : alookup l a = none) : aerase l a = l := by
  induction l with
  | nil => rfl
  | cons e t ih =>
      rw [alookup] at h
      by_cases he : e.1 = a
      · rw [if_pos he] at h; cases h
      · rw [if_neg he] at h
        rw [aerase, if_neg he, ih h]

theorem mem_aerase {α β : Type} [DecidableEq α] {l : List (α × β)} {a : α}
    {e : α × β} (h : e ∈ aerase l a) : e ∈ l ∧ e.1 ≠ a := by
  induction l with
  | nil => simp [aerase] at h
  | cons p t ih =>
      rw [aerase] at h
      by_cases hp : p.1 = a
      · rw [if_pos hp] at h
        exact ⟨List.mem_cons_of_mem _ (ih h).1, (ih h).2⟩
      · rw [if_neg hp] at h
        rcases List.mem_cons.mp h with h1 | h1
        · subst h1; exact ⟨List.mem_cons_self _ _, hp⟩
        · exact ⟨List.mem_cons_of_mem _ (ih h1).1, (ih h1).2⟩

theorem alookup_ainsert {α β : Type} [DecidableEq α] (l : List (α × β)) (a : α)
    (b : β) (a' : α) :
    alookup (ainsert l a b) a' = if a' = a then some b else alookup l a' := by
  rw [ainsert, alookup, alookup_aerase]
  by_cases h : a = a'
  · simp [h]
  · have : ¬a' = a := fun hc => h hc.symm
    simp [h, this]

theorem one_le_vcount_of_mem {α β : Type} [DecidableEq β] {l : List (α × β)}
    {e : α × β} (h : e ∈ l) : 1 ≤ vcount l e.2 := by
  induction l with
  | nil => simp at h
  | cons p t ih =>
      rw [vcount]
      rcases List.mem_cons.mp h with h1 | h1
      · subst h1; simp
      · have := ih h1; omega

theorem vcount_eq_zero_iff {α β : Type} [DecidableEq β] {l : List (α × β)} {b : β} :
    vcount l b = 0 ↔ ∀ e ∈ l, e.2 ≠ b := by
  induction l with
  | nil => simp [vcount]
  | cons p t ih => by_cases h : p.2 = b <;> simp [vcount, h, ih]

theorem vcount_ainsert_of_none {α β : Type} [DecidableEq α] [DecidableEq β]
    {l : List (α × β)} {a : α} (b : β) (k : β) (h : alookup l a = none) :
    vcount (ainsert l a b) k = vcount l k + (if b = k then 1 else 0) := by
  rw [ainsert, aerase_of_alookup_eq_none h, vcount, Nat.add_comm]

/-- C1: `keyFor` is claimed to digest the concatenation of the block hashes,
so that descriptors equal in name, version and modified time but with
different block lists get different keys.  The code computes that digest
into a hasher it then discards and stores `md5.Sum(nil)` instead, so the two
descriptors below — equal except for their block hashes — get equal keys. -/
theorem keyFor_ignores_blocks :
    fileA.Name = fileB.Name ∧ fileA.Version = fileB.Version ∧
    fileA.Modified = fileB.Modified ∧ fileA.Blocks ≠ fileB.Blocks ∧
    keyFor fileA = keyFor fileB := by
  refine ⟨rfl, rfl, rfl, ?_, rfl⟩
  decide

/-- C2 counterexample: on a freshly constructed set the per-peer maps are
nil, so the first `Update` aborts (assignment to an entry in a nil map)
instead of succeeding as the claim states. -/
theorem update_on_fresh_set_panics : Update 0 [fa, fb] NewSet = none := rfl

/-- C2 amended: `Update(0, [a@1, b@1])` on a fresh set aborts; initializing
the two peers with `Replace(0, [a@1, b@1])` then `Replace(1, [a@1, b@1])`
instead succeeds and yields availability mask `0b11` for both names, global
version 1 for both, empty `Need(0)` and `Need(1)`, and both change counters
equal to 1. -/
theorem scenario_two_identical_peers :
    Update 0 [fa, fb] NewSet = none ∧
    c2run.map (fun s2 =>
        (Availability ("a") s2, Availability ("b") s2,
         (GetGlobal ("a") s2).Version, (GetGlobal ("b") s2).Version,
         Need 0 s2, Need 1 s2, Changes 0 s2, Changes 1 s2))
      = some (3, 3, 1, 1, [], [], 1, 1) :=
  ⟨rfl, rfl⟩

theorem refCount_eq_sum (rk : PeerMaps) (k : key) :
    refCount rk k = ∑ i : Fin 64, vcount ((rk i).getD []) k := by
  rw [refCount, Fin.sum_univ_def]

theorem refCount_split (rk : PeerMaps) (c : Fin 64) (k : key) :
    refCount rk k = vcount ((rk c).getD []) k + refCountExcept rk c k := by
  rw [refCount_eq_sum, refCountExcept]
  exact (Finset.add_sum_erase _ _ (Finset.mem_univ c)).symm

theorem refCount_update (rk : PeerMaps) (c : Fin 64) (m : List (String × key))
    (k : key) :
    refCount (Function.update rk c (some m)) k = vcount m k + refCountExcept rk c k := by
  rw [refCount_split (Function.update rk c (some m)) c k]
  congr 1
  · rw [Function.update_same]
    rfl
  · rw [refCountExcept, refCountExcept]
    refine Finset.sum_congr rfl fun i hi => ?_
    rw [Function.update_noteq (Finset.ne_of_mem_erase hi)]

theorem one_le_refCountExcept (rk : PeerMaps) {c i : Fin 64} (hne : i ≠ c)
    {e : String × key} (he : e ∈ (rk i).getD []) :
    1 ≤ refCountExcept rk c e.2 := by
  have h1 : 1 ≤ vcount ((rk i).getD []) e.2 := one_le_vcount_of_mem he
  have h2 : vcount ((rk i).getD []) e.2 ≤ refCountExcept rk c e.2 := by
    rw [refCountExcept]
    exact Finset.single_le_sum (f := fun j => vcount ((rk j).getD []) e.2)
      (fun _ _ => Nat.zero_le _) (Finset.mem_erase.mpr ⟨hne, Finset.mem_univ i⟩)
  omega

theorem refCount_eq_zero (rk : PeerMaps) (files : List (key × fileRecord)) (k : key)
    (hp : ∀ i : Fin 64, ∀ e ∈ (rk i).getD [], (alookup files e.2).isSome)
    (hk : alookup files k = none) : refCount rk k = 0 := by
  rw [refCount_eq_sum]
  refine Finset.sum_eq_zero fun i _ => ?_
  rw [vcount_eq_zero_iff]
  intro e he hek
  have hs := hp i e he
  rw [hek, hk] at hs
  simp at hs

theorem updateGlobal_files (c : Fin 64) (n : String) (fk : key) (s : Set) :
    (updateGlobal c n fk s).files = s.files := by
  simp only [updateGlobal]
  split_ifs <;> rfl

theorem updateGlobal_remoteKey (c : Fin 64) (n : String) (fk : key) (s : Set) :
    (updateGlobal c n fk s).remoteKey = s.remoteKey := by
  simp only [updateGlobal]
  split_ifs <;> rfl

theorem recomputeGlobal_files (l : List String) (s : Set) :
    (recomputeGlobal s l).files = s.files ∧
    (recomputeGlobal s l).remoteKey = s.remoteKey := by
  induction l generalizing s with
  | nil => exact ⟨rfl, rfl⟩
  | cons n rest ih =>
      rw [recomputeGlobal]
      constructor
      · rw [(ih _).1]; split_ifs <;> rfl
      · rw [(ih _).2]; split_ifs <;> rfl

theorem usageInvariant_congr {s t : Set} (hf : t.files = s.files)
    (hr : t.remoteKey = s.remoteKey) (h : usageInvariant s) : usageInvariant t := by
  simp only [usageInvariant, entriesOf] at h ⊢
  rw [hf, hr]
  exact h

theorem usageInvariant_bump (c : Fin 64) (s : Set) (f : File)
    (rem : List (String × key)) (hrem : s.remoteKey c = some rem)
    (hnone : alookup rem f.Name = none) (hinv : usageInvariant s) :
    usageInvariant
      { s with
          remoteKey := Function.update s.remoteKey c (some (ainsert rem f.Name (keyFor f))),
          files := bumpFiles f (keyFor f) s.files } := by
  obtain ⟨h1, h2, h3⟩ := hinv
  have hgetd : (s.remoteKey c).getD [] = rem := by rw [hrem]; rfl
  have hentc : entriesOf s c = rem := hgetd
  have hcount : ∀ k : key,
      refCount (Function.update s.remoteKey c (some (ainsert rem f.Name (keyFor f)))) k
        = refCount s.remoteKey k + (if keyFor f = k then 1 else 0) := by
    intro k
    rw [refCount_update, vcount_ainsert_of_none _ _ hnone,
        refCount_split s.remoteKey c k, hgetd]
    generalize (if keyFor f = k then 1 else 0) = t
    omega
  have hfk_some : (alookup (bumpFiles f (keyFor f) s.files) (keyFor f)).isSome := by
    cases hbf : alookup s.files (keyFor f) <;>
      simp [bumpFiles, hbf, alookup_ainsert]
  have hmono : ∀ k : key, (alookup s.files k).isSome →
      (alookup (bumpFiles f (keyFor f) s.files) k).isSome := by
    intro k hk
    by_cases hkf : k = keyFor f
    · rw [hkf]; exact hfk_some
    · cases hbf : alookup s.files (keyFor f) <;>
        simp only [bumpFiles, hbf, alookup_ainsert, if_neg hkf] <;> exact hk
  rw [usageInvariant]
  refine ⟨?_, ?_, ?_⟩
  · intro e he
    simp only at he ⊢
    rw [hcount e.1]
    cases hbf : alookup s.files (keyFor f) with
    | none =>
        simp only [bumpFiles, hbf, ainsert, aerase_of_alookup_eq_none hbf] at he
        have hz : refCount s.remoteKey (keyFor f) = 0 := refCount_eq_zero _ _ _ h3 hbf
        rcases List.mem_cons.mp he with h | h
        · subst h
          simp [hz]
        · have hne : e.1 ≠ keyFor f := alookup_eq_none_iff.mp hbf e h
          rw [h1 e h, if_neg fun hc => hne hc.symm]
          omega
    | some br =>
        simp only [bumpFiles, hbf, ainsert] at he
        rcases List.mem_cons.mp he with h | h
        · subst h
          have hu := h1 (keyFor f, br) (mem_of_alookup_eq_some hbf)
          simp only at hu
          simp [hu]
        · obtain ⟨hmem, hne⟩ := mem_aerase h
          rw [h1 e hmem, if_neg fun hc => hne hc.symm]
          omega
  · intro e he
    simp only at he ⊢
    cases hbf : alookup s.files (keyFor f) with
    | none =>
        simp only [bumpFiles, hbf, ainsert, aerase_of_alookup_eq_none hbf] at he
        rcases List.mem_cons.mp he with h | h
        · subst h; simp
        · exact h2 e h
    | some br =>
        simp only [bumpFiles, hbf, ainsert] at he
        rcases List.mem_cons.mp he with h | h
        · subst h; simp
        · exact h2 e (mem_aerase h).1
  · intro i e he
    simp only [entriesOf] at he
    simp only
    by_cases hic : i = c
    · subst hic
      rw [Function.update_same] at he
      simp only [Option.getD_some] at he
      simp only [ainsert, aerase_of_alookup_eq_none hnone] at he
      rcases List.mem_cons.mp he with h | h
      · subst h; exact hfk_some
      · exact hmono _ (h3 i e (by rw [hentc]; exact h))
    · rw [Function.update_noteq hic] at he
      exact hmono _ (h3 i e he)

theorem usageInvariant_updateGo (fs : List File) : ∀ (c : Fin 64) (s s1 : Set),
    noRebind (entriesOf s c) fs = true → usageInvariant s →
    updateGo c s fs = some s1 → usageInvariant s1 := by
  induction fs with
  | nil =>
      intro c s s1 _ hinv h
      rw [updateGo] at h
      injection h with h
      rw [← h]
      exact hinv
  | cons f fs ih =>
      intro c s s1 hnr hinv h
      rw [updateGo] at h
      cases hu : update1 c s f with
      | none =>
          simp only [hu] at h
          exact Option.noConfusion h
      | some s2 =>
          simp only [hu] at h
          simp only [update1] at hu
          by_cases hcond : alookup (entriesOf s c) f.Name = some (keyFor f)
          · rw [if_pos hcond] at hu
            injection hu with hu
            refine ih c s s1 ?_ hinv (by rw [hu]; exact h)
            simp [noRebind, hcond] at hnr
            exact hnr
          · rw [if_neg hcond] at hu
            cases hlk : alookup (entriesOf s c) f.Name with
            | some k =>
                simp only [noRebind, hlk] at hnr
                by_cases hk : k = keyFor f
                · rw [hk] at hlk; exact absurd hlk hcond
                · rw [if_neg hk] at hnr; exact absurd hnr (by simp)
            | none =>
                simp only [noRebind, hlk] at hnr
                cases hrm : s.remoteKey c with
                | none =>
                    simp only [hrm] at hu
                    exact Option.noConfusion hu
                | some rem =>
                    simp only [hrm] at hu
                    injection hu with hu
                    have hentc : entriesOf s c = rem := by
                      rw [entriesOf, hrm]; rfl
                    have hlk2 : alookup rem f.Name = none := by
                      rw [← hentc]; exact hlk
                    have hinv2 : usageInvariant s2 := by
                      rw [← hu]
                      exact usageInvariant_congr (updateGlobal_files _ _ _ _)
                        (updateGlobal_remoteKey _ _ _ _)
                        (usageInvariant_bump c s f rem hrm hlk2 hinv)
                    have hent2 : entriesOf s2 c = ainsert rem f.Name (keyFor f) := by
                      rw [← hu, entriesOf, updateGlobal_remoteKey]
                      simp only
                      rw [Function.update_same]
                      rfl
                    refine ih c s2 s1 ?_ hinv2 h
                    rw [hent2, ← hentc]
                    exact hnr

theorem decFiles_spec (B : key → Nat) (rest : List (String × key)) :
    ∀ F : List (key × fileRecord),
    (∀ e ∈ F, e.2.Usage = B e.1 + vcount rest e.1) →
    (∀ k, alookup F k = none → B k = 0 ∧ vcount rest k = 0) →
    (∀ e ∈ F, 1 ≤ e.2.Usage) →
    (∀ e ∈ decFiles F rest, e.2.Usage = B e.1) ∧
    (∀ k, alookup (decFiles F rest) k = none → B k = 0) ∧
    (∀ e ∈ decFiles F rest, 1 ≤ e.2.Usage) := by
  induction rest with
  | nil =>
      intro F hA hN hU
      simp only [decFiles]
      refine ⟨fun e he => ?_, fun k hk => (hN k hk).1, hU⟩
      have h0 := hA e he
      simpa [vcount] using h0
  | cons p rest ih =>
      intro F hA hN hU
      cases hbf : alookup F p.2 with
      | none =>
          exfalso
          have h0 := (hN p.2 hbf).2
          rw [vcount, if_pos rfl] at h0
          omega
      | some br =>
          have hbrU : br.Usage = B p.2 + vcount (p :: rest) p.2 :=
            hA (p.2, br) (mem_of_alookup_eq_some hbf)
          have hbr1 : 1 ≤ br.Usage := hU (p.2, br) (mem_of_alookup_eq_some hbf)
          have hv : vcount (p :: rest) p.2 = vcount rest p.2 + 1 := by
            rw [vcount, if_pos rfl]; omega
          simp only [decFiles, hbf]
          by_cases h1u : br.Usage = 1
          · rw [if_pos h1u]
            have hz : B p.2 = 0 ∧ vcount rest p.2 = 0 := by omega
            refine ih _ ?_ ?_ ?_
            · intro e he
              obtain ⟨hm, hne⟩ := mem_aerase he
              have h0 := hA e hm
              rw [vcount, if_neg fun hc => hne hc.symm] at h0
              omega
            · intro k hk
              rw [alookup_aerase] at hk
              by_cases hkp : k = p.2
              · rw [hkp]; exact hz
              · rw [if_neg hkp] at hk
                obtain ⟨hb, hvk⟩ := hN k hk
                rw [vcount] at hvk
                exact ⟨hb, by omega⟩
            · intro e he
              exact hU e (mem_aerase he).1
          · rw [if_neg h1u]
            by_cases h2u : 1 < br.Usage
            · rw [if_pos h2u]
              refine ih _ ?_ ?_ ?_
              · intro e he
                rw [ainsert] at he
                rcases List.mem_cons.mp he with h | h
                · subst h
                  show br.Usage - 1 = B p.2 + vcount rest p.2
                  omega
                · obtain ⟨hm, hne⟩ := mem_aerase h
                  have h0 := hA e hm
                  rw [vcount, if_neg fun hc => hne hc.symm] at h0
                  omega
              · intro k hk
                rw [alookup_ainsert] at hk
                by_cases hkp : k = p.2
                · rw [if_pos hkp] at hk
                  exact Option.noConfusion hk
                · rw [if_neg hkp] at hk
                  obtain ⟨hb, hvk⟩ := hN k hk
                  rw [vcount] at hvk
                  exact ⟨hb, by omega⟩
              · intro e he
                rw [ainsert] at he
                rcases List.mem_cons.mp he with h | h
                · subst h
                  show 1 ≤ br.Usage - 1
                  omega
                · exact hU e (mem_aerase h).1
            · exfalso; omega

theorem usageInvariant_replaceGo {c : Fin 64} {fs : List File} {s s1 : Set}
    (hnr : noRebind [] fs = true) (hinv : usageInvariant s)
    (h : replaceGo c fs s = some s1) : usageInvariant s1 := by
  obtain ⟨h1, h2, h3⟩ := hinv
  have hA : ∀ e ∈ s.files,
      e.2.Usage = refCountExcept s.remoteKey c e.1 + vcount (entriesOf s c) e.1 := by
    intro e he
    have h0 := h1 e he
    rw [refCount_split s.remoteKey c e.1] at h0
    rw [entriesOf]
    omega
  have hN : ∀ k, alookup s.files k = none →
      refCountExcept s.remoteKey c k = 0 ∧ vcount (entriesOf s c) k = 0 := by
    intro k hk
    have h0 := refCount_eq_zero s.remoteKey s.files k h3 hk
    rw [refCount_split s.remoteKey c k] at h0
    rw [entriesOf]
    omega
  obtain ⟨d1, d2, d3⟩ :=
    decFiles_spec (refCountExcept s.remoteKey c) (entriesOf s c) s.files hA hN h2
  have hinv2 : usageInvariant
      { s with files := decFiles s.files (entriesOf s c),
               remoteKey := Function.update s.remoteKey c (some []) } := by
    refine ⟨?_, ?_, ?_⟩
    · intro e he
      simp only at he ⊢
      rw [refCount_update]
      simpa [vcount] using d1 e he
    · intro e he
      simp only at he ⊢
      exact d3 e he
    · intro i e he
      simp only [entriesOf] at he
      simp only
      by_cases hic : i = c
      · subst hic
        rw [Function.update_same] at he
        simp at he
      · rw [Function.update_noteq hic] at he
        have hpos := one_le_refCountExcept s.remoteKey hic he
        cases hlk : alookup (decFiles s.files (entriesOf s c)) e.2 with
        | none =>
            have h0 := d2 e.2 hlk
            omega
        | some br => simp
  have hstep : ∀ t : Set, usageInvariant t →
      t.remoteKey = Function.update s.remoteKey c (some []) →
      usageInvariant (recomputeGlobal t (t.globalKey.map Prod.fst)) ∧
      entriesOf (recomputeGlobal t (t.globalKey.map Prod.fst)) c = [] := by
    intro t hit hrk
    have hproj := recomputeGlobal_files (t.globalKey.map Prod.fst) t
    refine ⟨usageInvariant_congr hproj.1 hproj.2 hit, ?_⟩
    rw [entriesOf, hproj.2, hrk, Function.update_same]
    rfl
  have hres := hstep
    { s with files := decFiles s.files (entriesOf s c),
             remoteKey := Function.update s.remoteKey c (some []) }
    hinv2 rfl
  refine usageInvariant_updateGo fs c _ s1 ?_ hres.1 h
  rw [hres.2]
  exact hnr

/-- C3 counterexample: after `Replace(0, [a@1])` then `Update(0, [a@2])`
(both of which return), the record keyed by `a@1` is still in the table with
stored usage 1, while the exact number of `(peer, name)` entries mapping to
it is 0 — `Update` never decrements the usage of the record it unbinds. -/
theorem update_leaves_stale_record :
    c3run.map (fun s =>
        (alookup s.files (keyFor fa), refCount s.remoteKey (keyFor fa)))
      = some (some { Usage := 1, File := fa }, 0) := rfl

/-- C3 amended: in every history of public operations from `NewSet` in which
no `Update` rebinds an existing `(peer, name)` entry to a different key and
no list handed to `Replace` or `ReplaceWithDelete` (with its synthesized
tombstones) binds one name to two different keys, after every operation that
returns the stored `Usage` of every record equals the exact number of
`(peer, name)` entries across the 64 per-peer indices mapping to it, every
stored usage is at least 1 (no zero-reference record remains), and every
per-peer entry resolves to a record in the table. -/
theorem usage_invariant_of_reachable (s : Set) (h : Reachable s) :
    usageInvariant s := by
  induction h with
  | base => refine ⟨?_, ?_, ?_⟩ <;> simp [NewSet, entriesOf]
  | update i fs s s1 hr hnr hop ih =>
      have hlt : (i : Nat) < 64 := i.isLt
      rw [Update, dif_pos hlt] at hop
      simp only [Fin.eta] at hop
      cases hg : updateGo i s fs with
      | none =>
          rw [hg] at hop
          exact Option.noConfusion hop
      | some s2 =>
          rw [hg] at hop
          injection hop with hop
          rw [← hop]
          exact usageInvariant_congr rfl rfl
            (usageInvariant_updateGo fs i s s2 hnr ih hg)
  | replace i fs s s1 hr hnr hop ih =>
      have hlt : (i : Nat) < 64 := i.isLt
      rw [Replace, dif_pos hlt] at hop
      simp only [Fin.eta] at hop
      by_cases heq : equalsGo s i fs = true
      · rw [if_pos heq] at hop
        injection hop with hop
        rw [← hop]
        exact ih
      · rw [if_neg heq] at hop
        exact usageInvariant_replaceGo (s := bumpChanges s i) hnr
          (usageInvariant_congr (t := bumpChanges s i) rfl rfl ih) hop
  | replaceWithDelete i fs s s1 cv cv1 hr hnr hop ih =>
      have hlt : (i : Nat) < 64 := i.isLt
      rw [ReplaceWithDelete, dif_pos hlt] at hop
      simp only [Fin.eta] at hop
      by_cases heq : equalsGo s i fs = true
      · rw [if_pos heq] at hop
        injection hop with hop
        have h0 : s = s1 := congrArg Prod.fst hop
        rw [← h0]
        exact ih
      · rw [if_neg heq] at hop
        rcases Option.map_eq_some'.mp hop with ⟨s2, hrep, hpair⟩
        have h0 : s2 = s1 := congrArg Prod.fst hpair
        rw [← h0]
        exact usageInvariant_replaceGo (s := bumpChanges s i) hnr
          (usageInvariant_congr (t := bumpChanges s i) rfl rfl ih) hrep

/-- Witness: a concrete restricted history — `Replace(0, [a@1])` on a fresh
set — reaches a state satisfying the usage invariant. -/
theorem usage_invariant_of_reachable_witness :
    usageInvariant ((Replace 0 [fa] NewSet).getD NewSet) :=
  usage_invariant_of_reachable _
    (Reachable.replace 0 [fa] NewSet ((Replace 0 [fa] NewSet).getD NewSet)
      Reachable.base rfl rfl)

end Files
